import Mathlib

/-!
# Verification of the OM1 orchestrators

A shallow embedding of `src/actions/orchestrator.py` and
`src/backgrounds/orchestrator.py`:

* `_normalize_action`, `_get_agent_action` — pure helpers, embedded directly.
* The completion-signal table is the list of keys of the Python dict
  `_completed_actions`, together with the set of labels whose `asyncio.Event`
  has been set.
* Sequential dispatch (`_promise_sequential`) has no internal interleaving
  (every created task is awaited immediately), so it is embedded as a pure
  state-passing function producing an event trace.
* Dependency dispatch (`_promise_with_dependencies` plus the task body
  `_promise_action_with_deps`) runs tasks concurrently on asyncio's
  single-threaded cooperative scheduler, so it is embedded as a small-step
  relation on a state holding every task's phase, the signal table and the
  observable trace; the suspension points of the Python coroutines are the
  step boundaries.
* The thread-based worker loops (`_run_connector_loop`,
  `_run_background_loop`) are embedded as fuel-indexed loop functions over
  an oracle giving the stop flag and the step outcome of each iteration.
* `ThreadPoolExecutor` is modelled by its documented Python semantics:
  `submit` raises `RuntimeError` after `shutdown`.
-/

namespace OM1

/-- Python's `str.lower()` restricted to per-character lowercasing
(faithful for the ASCII labels this code uses). -/
def pyLower (s : String) : String := ⟨s.data.map Char.toLower⟩

/-- Embeds `llm.output_model.Action`: one abstract action of a dispatch batch
(`type` label and opaque `value` payload). -/
structure Action where
  type : String
  value : String
deriving DecidableEq, Repr

/-- Embeds `actions.base.AgentAction`, restricted to the field the orchestrator's
dispatch logic reads: the registered (lowercase) label `llm_label`.  The
connector itself is kept abstract; its call outcomes are supplied to the
dispatch models as an oracle. -/
structure AgentAction where
  llm_label : String
deriving DecidableEq, Repr

/-- Embeds `ActionOrchestrator._normalize_action` (orchestrator.py lines 255-286):
rewrite a shorthand movement action with empty value to a `move` action whose
value is the (lowercased) shorthand label; otherwise return it unchanged. -/
def _normalize_action (action : Action) : Action :=
  let tl := pyLower action.type
  let av := action.value
  if tl = "stand still" ∧ av = "" then { type := "move", value := "stand still" }
  else if tl = "turn left" ∧ av = "" then { type := "move", value := "turn left" }
  else if tl = "turn right" ∧ av = "" then { type := "move", value := "turn right" }
  else if tl = "move forwards" ∧ av = "" then { type := "move", value := "move forwards" }
  else if tl = "move back" ∧ av = "" then { type := "move", value := "move back" }
  else action

/-- The five shorthand movement labels recognized by `_normalize_action`. -/
def shorthandLabels : List String :=
  ["stand still", "turn left", "turn right", "move forwards", "move back"]

/-- Embeds `ActionOrchestrator._get_agent_action` (lines 288-314): the first
registered binding whose `llm_label` equals the action's lowercased type,
or `none` (in which case the caller logs a warning and skips the action). -/
def _get_agent_action (agent_actions : List AgentAction) (action : Action) :
    Option AgentAction :=
  agent_actions.find? (fun m => m.llm_label = pyLower action.type)

/-- The keys of the dict `_completed_actions` rebuilt at the top of
`promise` (lines 138-140): one completion gate per action of the batch,
keyed by the action's lowercased *raw* type (the comprehension runs before
any normalization). -/
def _completed_actions_keys (actions : List Action) : List String :=
  actions.map (fun a => pyLower a.type)

theorem normalize_action_shorthand (a : Action)
    (hmem : pyLower a.type ∈ shorthandLabels) (hval : a.value = "") :
    _normalize_action a = ⟨"move", pyLower a.type⟩ := by
  simp only [shorthandLabels, List.mem_cons, List.not_mem_nil, or_false] at hmem
  unfold _normalize_action
  rcases hmem with h | h | h | h | h <;>
    simp [h, hval]

theorem normalize_action_passthrough (a : Action)
    (h : pyLower a.type ∉ shorthandLabels ∨ a.value ≠ "") :
    _normalize_action a = a := by
  unfold _normalize_action
  rcases h with h | h
  · simp only [shorthandLabels, List.mem_cons, List.not_mem_nil, or_false,
      not_or] at h
    obtain ⟨h1, h2, h3, h4, h5⟩ := h
    simp [h1, h2, h3, h4, h5]
  · simp [h]

theorem normalize_action_idem (a : Action) :
    _normalize_action (_normalize_action a) = _normalize_action a := by
  by_cases hc : pyLower a.type ∈ shorthandLabels ∧ a.value = ""
  · rw [normalize_action_shorthand a hc.1 hc.2]
    apply normalize_action_passthrough
    left
    show pyLower "move" ∉ shorthandLabels
    decide
  · rw [not_and_or] at hc
    have h := normalize_action_passthrough a hc
    rw [h, h]

/-- C5 (counterexample): the claim says a shorthand action is rewritten to
`value = the original type`; but for the mixed-case shorthand
`{type: "Stand Still", value: ""}` the code sets `value` to the lowercase
label `"stand still"`, not to the original type `"Stand Still"`. -/
theorem normalize_mixed_case_value_not_original :
    _normalize_action ⟨"Stand Still", ""⟩ = ⟨"move", "stand still"⟩ ∧
      (_normalize_action ⟨"Stand Still", ""⟩).value ≠ "Stand Still" := by
  constructor
  · decide
  · decide

/-- C5 (amended): `_normalize_action` is a pure total function: an action
whose lowercased type is one of the five shorthand movement labels and whose
value is empty is rewritten to `type = "move"`, `value = the lowercased
original type` (the canonical shorthand label); every other action passes
through unchanged; and the function is idempotent. -/
theorem normalize_action_correct :
    (∀ a : Action, pyLower a.type ∈ shorthandLabels → a.value = "" →
      _normalize_action a = ⟨"move", pyLower a.type⟩) ∧
    (∀ a : Action, pyLower a.type ∉ shorthandLabels ∨ a.value ≠ "" →
      _normalize_action a = a) ∧
    (∀ a : Action, _normalize_action (_normalize_action a) = _normalize_action a) :=
  ⟨normalize_action_shorthand, normalize_action_passthrough, normalize_action_idem⟩

/-- Concrete instantiation of `normalize_action_correct`: the shorthand
`{type: "Turn LEFT", value: ""}` is rewritten to the canonical move action,
`{type: "levitate", value: "x"}` passes through unchanged, and normalization
of each is idempotent. -/
theorem normalize_action_correct_witness :
    _normalize_action ⟨"Turn LEFT", ""⟩ = ⟨"move", "turn left"⟩ ∧
      _normalize_action ⟨"levitate", "x"⟩ = ⟨"levitate", "x"⟩ ∧
      _normalize_action (_normalize_action ⟨"Turn LEFT", ""⟩) =
        _normalize_action ⟨"Turn LEFT", ""⟩ := by
  refine ⟨?_, ?_, ?_⟩
  · have h := normalize_action_correct.1 ⟨"Turn LEFT", ""⟩ (by decide) (by decide)
    rw [h]
    decide
  · exact normalize_action_correct.2.1 ⟨"levitate", "x"⟩ (by decide)
  · exact normalize_action_correct.2.2 ⟨"Turn LEFT", ""⟩

/-! ## Promise-queue flushing -/

/-- Modelled from Python asyncio semantics:
`asyncio.wait(queue, return_when=ALL_COMPLETED)` with no timeout suspends
until every task is done and returns `(done, pending)` where `done` holds
every task (successes and failures alike) and `pending` is empty.  A task is
represented by its eventual terminal outcome. -/
def asyncio_wait_all {α : Type} (queue : List (Except String α)) :
    List (Except String α) × List (Except String α) :=
  (queue, [])

/-- Embeds `ActionOrchestrator.flush_promises` (lines 103-122): on an empty queue
return `([], [])` immediately; otherwise wait for all queued tasks, clear
the queue, and return the done and pending collections.  The result is
`((done, pending), new_queue)`. -/
def flush_promises {α : Type} (promise_queue : List (Except String α)) :
    (List (Except String α) × List (Except String α)) × List (Except String α) :=
  if promise_queue.isEmpty then (([], []), promise_queue)
  else (asyncio_wait_all promise_queue, [])

/-- C6: `flush_promises` waits for every queued task to reach a terminal
state (the done collection is exactly the queue's outcomes, success or
failure), returns an empty pending collection, leaves the queue empty
afterwards, and on an empty queue returns two empty collections. -/
theorem flush_promises_spec {α : Type} (q : List (Except String α)) :
    (flush_promises q).1.1 = q ∧ (flush_promises q).1.2 = [] ∧
      (flush_promises q).2 = [] ∧
      flush_promises ([] : List (Except String α)) = (([], []), []) := by
  unfold flush_promises asyncio_wait_all
  match q with
  | [] => simp
  | x :: xs => simp

/-! ## Worker loops -/

/-- One observable iteration of a thread-based worker loop. -/
inductive LoopEv
  /-- the step call of iteration `i` returned normally -/
  | ok (i : Nat)
  /-- the step call of iteration `i` raised: the exception was caught,
  `logged` records that the error was logged, and the loop slept
  `slept_ms` milliseconds before continuing -/
  | caught (i : Nat) (err : String) (logged : Bool) (slept_ms : Nat)
deriving DecidableEq, Repr

/-- Embeds `ActionOrchestrator._run_connector_loop` (lines 84-101), fuel-indexed:
iteration `i` first observes the stop event; if it is set the loop returns
(second component `true`); otherwise it calls `action.connector.tick()`,
whose outcome is `step i`, catching any exception by logging the error and
sleeping 0.1 s (100 ms).  `fuel` bounds how many iterations are unrolled;
when it runs out the loop is still running (second component `false`). -/
def _run_connector_loop (stop_event : Nat → Bool) (step : Nat → Except String Unit) :
    Nat → Nat → List LoopEv × Bool
  | _, 0 => ([], false)
  | i, fuel + 1 =>
    if stop_event i then ([], true)
    else
      let ev := match step i with
        | .ok _ => LoopEv.ok i
        | .error e => LoopEv.caught i e true 100
      let r := _run_connector_loop stop_event step (i + 1) fuel
      (ev :: r.1, r.2)

/-- Embeds `BackgroundOrchestrator._run_background_loop` (backgrounds orchestrator
lines 69-83), fuel-indexed: identical to the connector loop with
`background.run()` as the step call. -/
def _run_background_loop (stop_event : Nat → Bool) (step : Nat → Except String Unit) :
    Nat → Nat → List LoopEv × Bool
  | _, 0 => ([], false)
  | i, fuel + 1 =>
    if stop_event i then ([], true)
    else
      let ev := match step i with
        | .ok _ => LoopEv.ok i
        | .error e => LoopEv.caught i e true 100
      let r := _run_background_loop stop_event step (i + 1) fuel
      (ev :: r.1, r.2)

theorem background_loop_eq_connector_loop (stop_event : Nat → Bool)
    (step : Nat → Except String Unit) (i fuel : Nat) :
    _run_background_loop stop_event step i fuel =
      _run_connector_loop stop_event step i fuel := by
  induction fuel generalizing i with
  | zero => rfl
  | succ f ih =>
    unfold _run_background_loop _run_connector_loop
    rw [ih]

theorem connector_loop_len_ge (stop_event : Nat → Bool)
    (step : Nat → Except String Unit) :
    ∀ fuel i n, (∀ j, j < n → stop_event (i + j) = false) → n ≤ fuel →
      n ≤ ((_run_connector_loop stop_event step i fuel).1).length := by
  intro fuel
  induction fuel with
  | zero => intro i n _ hn; omega
  | succ f ih =>
    intro i n hstop hn
    match n with
    | 0 => exact Nat.zero_le _
    | m + 1 =>
      have h0 : stop_event i = false := by simpa using hstop 0 (Nat.succ_pos m)
      unfold _run_connector_loop
      simp only [h0, Bool.false_eq_true, if_false, List.length_cons]
      have hm : m ≤ ((_run_connector_loop stop_event step (i + 1) f).1).length := by
        refine ih (i + 1) m ?_ (by omega)
        intro j hj
        have := hstop (j + 1) (Nat.succ_lt_succ hj)
        simpa [Nat.add_comm, Nat.add_assoc, Nat.add_left_comm] using this
      omega

theorem connector_loop_exits_at_stop (stop_event : Nat → Bool)
    (step : Nat → Except String Unit) :
    ∀ fuel k i, stop_event (i + k) = true → (∀ j, j < k → stop_event (i + j) = false) →
      k < fuel →
      ((_run_connector_loop stop_event step i fuel).1).length = k ∧
        (_run_connector_loop stop_event step i fuel).2 = true := by
  intro fuel
  induction fuel with
  | zero => intro k i _ _ hf; omega
  | succ f ih =>
    intro k i hk hbefore hfuel
    match k with
    | 0 =>
      simp only [Nat.add_zero] at hk
      unfold _run_connector_loop
      simp [hk]
    | m + 1 =>
      have h0 : stop_event i = false := by simpa using hbefore 0 (Nat.succ_pos m)
      have hk' : stop_event (i + 1 + m) = true := by
        rw [show i + 1 + m = i + (m + 1) by omega]; exact hk
      have hbefore' : ∀ j, j < m → stop_event (i + 1 + j) = false := by
        intro j hj
        rw [show i + 1 + j = i + (j + 1) by omega]
        exact hbefore (j + 1) (Nat.succ_lt_succ hj)
      have hrec := ih m (i + 1) hk' hbefore' (by omega)
      unfold _run_connector_loop
      simp only [h0, Bool.false_eq_true, if_false, List.length_cons]
      exact ⟨by rw [hrec.1], hrec.2⟩

theorem connector_loop_caught_shape (stop_event : Nat → Bool)
    (step : Nat → Except String Unit) :
    ∀ fuel i ev, ev ∈ (_run_connector_loop stop_event step i fuel).1 →
      ∀ j e logged slept, ev = LoopEv.caught j e logged slept →
        logged = true ∧ slept = 100 ∧ step j = .error e := by
  intro fuel
  induction fuel with
  | zero => intro i ev hev; simp [_run_connector_loop] at hev
  | succ f ih =>
    intro i ev hev j e logged slept heq
    unfold _run_connector_loop at hev
    by_cases h0 : stop_event i
    · simp [h0] at hev
    · simp only [h0, Bool.false_eq_true, if_false, List.mem_cons] at hev
      rcases hev with hev | hev
      · rcases hstep : step i with _ | u
        · rw [hstep] at hev
          subst hev
          obtain ⟨rfl, rfl, rfl, rfl⟩ := LoopEv.caught.inj heq
          exact ⟨rfl, rfl, hstep⟩
        · rw [hstep] at hev; subst hev; exact absurd heq (by simp)
      · exact ih (i + 1) ev hev j e logged slept heq

/-- C7: both worker loops (the action-connector loop and the background
loop, which are the same function) catch every exception of the step call,
log it and sleep the fixed 100 ms delay before continuing; with no stop
signal the loop keeps iterating for as long as fuel allows (no iteration
budget, a permanently failing step is retried indefinitely); and the loop
exits exactly at the first iteration whose top-of-loop check observes the
stop signal, after the previous iteration has finished. -/
theorem worker_loop_spec (stop_event : Nat → Bool) (step : Nat → Except String Unit)
    (n k fuel : Nat) (hretry : ∀ j, j < n → stop_event j = false)
    (hnf : n ≤ fuel) (hk : stop_event k = true)
    (hkb : ∀ j, j < k → stop_event j = false) (hkf : k < fuel) :
    _run_background_loop stop_event step 0 fuel =
        _run_connector_loop stop_event step 0 fuel ∧
      n ≤ ((_run_connector_loop stop_event step 0 fuel).1).length ∧
      ((_run_connector_loop stop_event step 0 fuel).1).length = k ∧
      (_run_connector_loop stop_event step 0 fuel).2 = true ∧
      (∀ ev ∈ (_run_connector_loop stop_event step 0 fuel).1,
        ∀ j e logged slept, ev = LoopEv.caught j e logged slept →
          logged = true ∧ slept = 100 ∧ step j = .error e) := by
  refine ⟨background_loop_eq_connector_loop _ _ 0 fuel, ?_, ?_, ?_, ?_⟩
  · exact connector_loop_len_ge stop_event step fuel 0 n (by simpa using hretry) hnf
  · exact (connector_loop_exits_at_stop stop_event step fuel k 0 (by simpa using hk)
      (by simpa using hkb) hkf).1
  · exact (connector_loop_exits_at_stop stop_event step fuel k 0 (by simpa using hk)
      (by simpa using hkb) hkf).2
  · intro ev hev j e logged slept heq
    exact connector_loop_caught_shape stop_event step fuel 0 ev hev j e logged slept heq

/-- Concrete instantiation of `worker_loop_spec`: a step that raises on
every iteration under a stop flag first set at iteration 5 runs exactly
5 iterations (at least 5: no budget cut it short), exits, and every
iteration logged its error and slept 100 ms. -/
theorem worker_loop_spec_witness :
    ((_run_connector_loop (fun i => decide (5 ≤ i)) (fun _ => .error "boom")
        0 9).1).length = 5 ∧
      (_run_connector_loop (fun i => decide (5 ≤ i)) (fun _ => .error "boom")
        0 9).2 = true := by
  have h := worker_loop_spec (fun i => decide (5 ≤ i)) (fun _ => .error "boom")
    5 5 9 (by decide) (by decide) (by decide) (by decide) (by decide)
  exact ⟨h.2.2.1, h.2.2.2.1⟩

/-! ## Orchestrator lifecycle: `start` / `stop` -/

/-- The submission machinery shared by `ActionOrchestrator` and
`BackgroundOrchestrator` (the two classes are textually identical here up
to naming: `_submitted_connectors`/`llm_label` vs `_submitted_backgrounds`/
`name`): the thread-pool executor's shutdown flag, the submitted-identity
set, the worker loops actually handed to the pool, the warnings logged for
skipped re-submissions, and the `_stop_event`. -/
structure ExecutorState where
  shutdown : Bool
  submitted : List String
  pool : List String
  warnings : List String
  stop_event : Bool
deriving DecidableEq, Repr

/-- The state right after `__init__`: nothing submitted, executor live. -/
def initExecutorState : ExecutorState :=
  { shutdown := false, submitted := [], pool := [], warnings := [], stop_event := false }

/-- Modelled from Python semantics of
`concurrent.futures.ThreadPoolExecutor.submit`: raises `RuntimeError` once
`shutdown` has been called, otherwise schedules the callable on the pool. -/
def executor_submit (s : ExecutorState) (label : String) : Except String ExecutorState :=
  if s.shutdown then .error "RuntimeError"
  else .ok { s with pool := s.pool ++ [label] }

/-- Embeds `ActionOrchestrator.start` (lines 60-82) and `BackgroundOrchestrator.start`
(backgrounds orchestrator lines 45-67): for each configured collaborator
identity, in configuration order, skip it with a warning if it is already in
the submitted set, otherwise submit its worker loop to the executor and add
it to the submitted set.  An exception from `submit` propagates. -/
def orchestrator_start (labels : List String) (s : ExecutorState) :
    Except String ExecutorState :=
  match labels with
  | [] => .ok s
  | l :: rest =>
    if l ∈ s.submitted then
      orchestrator_start rest { s with warnings := s.warnings ++ [l] }
    else
      match executor_submit s l with
      | .error e => .error e
      | .ok s' => orchestrator_start rest { s' with submitted := s'.submitted ++ [l] }

/-- Embeds `ActionOrchestrator.stop` (lines 341-346) and `BackgroundOrchestrator.stop`
(backgrounds orchestrator lines 85-94): set the stop event, then shut the
executor down (waiting for the running loops to finish). -/
def orchestrator_stop (s : ExecutorState) : ExecutorState :=
  { s with stop_event := true, shutdown := true }

/-- The sublist of `labels` that a `start` call beginning with submitted set
`submitted` actually submits: first occurrences of labels not already
submitted. -/
def newLabels (submitted : List String) : List String → List String
  | [] => []
  | l :: rest =>
    if l ∈ submitted then newLabels submitted rest
    else l :: newLabels (submitted ++ [l]) rest

theorem mem_newLabels (l : String) :
    ∀ labels submitted, l ∈ newLabels submitted labels ↔ l ∈ labels ∧ l ∉ submitted := by
  intro labels
  induction labels with
  | nil => intro submitted; simp [newLabels]
  | cons x rest ih =>
    intro submitted
    unfold newLabels
    by_cases hx : x ∈ submitted
    · rw [if_pos hx, ih]
      constructor
      · rintro ⟨h1, h2⟩; exact ⟨List.mem_cons_of_mem x h1, h2⟩
      · rintro ⟨h1, h2⟩
        rcases List.mem_cons.mp h1 with rfl | h1
        · exact absurd hx h2
        · exact ⟨h1, h2⟩
    · rw [if_neg hx]
      simp only [List.mem_cons, ih]
      constructor
      · rintro (rfl | ⟨h1, h2⟩)
        · exact ⟨Or.inl rfl, hx⟩
        · refine ⟨Or.inr h1, fun hc => h2 ?_⟩
          simp [hc]
      · rintro ⟨rfl | h1, h2⟩
        · exact Or.inl rfl
        · by_cases hxl : l = x
          · exact Or.inl hxl
          · refine Or.inr ⟨h1, ?_⟩
            simp [h2, hxl]

theorem nodup_newLabels : ∀ labels submitted, (newLabels submitted labels).Nodup := by
  intro labels
  induction labels with
  | nil => intro submitted; simp [newLabels]
  | cons x rest ih =>
    intro submitted
    unfold newLabels
    by_cases hx : x ∈ submitted
    · rw [if_pos hx]; exact ih submitted
    · rw [if_neg hx]
      refine List.nodup_cons.mpr ⟨?_, ih (submitted ++ [x])⟩
      rw [mem_newLabels]
      rintro ⟨_, h2⟩
      exact h2 (by simp)

theorem newLabels_eq_nil :
    ∀ labels submitted, (∀ l ∈ labels, l ∈ submitted) → newLabels submitted labels = [] := by
  intro labels
  induction labels with
  | nil => intro submitted _; rfl
  | cons x rest ih =>
    intro submitted h
    unfold newLabels
    rw [if_pos (h x (List.mem_cons_self x rest))]
    exact ih submitted fun l hl => h l (List.mem_cons_of_mem x hl)

theorem orchestrator_start_ok :
    ∀ labels (s : ExecutorState), s.shutdown = false →
      ∃ w, orchestrator_start labels s =
        .ok ⟨false, s.submitted ++ newLabels s.submitted labels,
             s.pool ++ newLabels s.submitted labels, w, s.stop_event⟩ := by
  intro labels
  induction labels with
  | nil =>
    intro s h
    refine ⟨s.warnings, ?_⟩
    simp only [orchestrator_start, newLabels, List.append_nil]
    rw [show s = ⟨false, s.submitted, s.pool, s.warnings, s.stop_event⟩ from by
      cases s; simp_all]
  | cons x rest ih =>
    intro s h
    unfold orchestrator_start newLabels
    by_cases hx : x ∈ s.submitted
    · rw [if_pos hx, if_pos hx]
      obtain ⟨w, hw⟩ := ih { s with warnings := s.warnings ++ [x] } h
      exact ⟨w, hw⟩
    · rw [if_neg hx, if_neg hx]
      unfold executor_submit
      rw [if_neg (by rw [h]; exact Bool.false_ne_true)]
      obtain ⟨w, hw⟩ :=
        ih ⟨false, s.submitted ++ [x], s.pool ++ [x], s.warnings, s.stop_event⟩ rfl
      refine ⟨w, ?_⟩
      show orchestrator_start rest
          ⟨s.shutdown, s.submitted ++ [x], s.pool ++ [x], s.warnings, s.stop_event⟩ = _
      rw [h, hw]
      simp

/-- C8: `start()` is idempotent for both orchestrators (both are embedded by
`orchestrator_start`): from a live executor it succeeds, and a second
`start()` with the same collaborator set changes neither the pool of
submitted worker loops nor the submitted set — every collaborator identity
is already in the submitted set, so it is skipped with a warning instead of
being resubmitted.  From a fresh orchestrator the pool after `start()`
holds exactly one worker loop per distinct configured collaborator. -/
theorem start_idempotent (labels : List String) (s : ExecutorState)
    (h : s.shutdown = false) :
    ∃ s₁ s₂, orchestrator_start labels s = .ok s₁ ∧
      orchestrator_start labels s₁ = .ok s₂ ∧
      s₂.pool = s₁.pool ∧ s₂.submitted = s₁.submitted ∧
      (s.submitted = [] → s.pool = [] →
        s₁.pool.Nodup ∧ ∀ l, l ∈ s₁.pool ↔ l ∈ labels) := by
  obtain ⟨w₁, hw₁⟩ := orchestrator_start_ok labels s h
  set s₁ : ExecutorState :=
    ⟨false, s.submitted ++ newLabels s.submitted labels,
     s.pool ++ newLabels s.submitted labels, w₁, s.stop_event⟩ with hs₁
  have hall : ∀ l ∈ labels, l ∈ s₁.submitted := by
    intro l hl
    by_cases hsub : l ∈ s.submitted
    · exact List.mem_append_left _ hsub
    · exact List.mem_append_right _ ((mem_newLabels l labels s.submitted).mpr ⟨hl, hsub⟩)
  obtain ⟨w₂, hw₂⟩ := orchestrator_start_ok labels s₁ rfl
  rw [newLabels_eq_nil labels s₁.submitted hall] at hw₂
  refine ⟨s₁, _, hw₁, hw₂, by simp, by simp, ?_⟩
  intro hsub hpool
  rw [hs₁]
  constructor
  · simp only [hsub, hpool, List.nil_append]
    exact nodup_newLabels labels []
  · intro l
    simp only [hsub, hpool, List.nil_append, mem_newLabels, List.not_mem_nil,
      not_false_iff, and_true]

/-- Concrete instantiation of `start_idempotent`: two `start()` calls on a
fresh orchestrator configured with collaborators `["move", "speak", "move"]`
end with the same pool and submitted set as one call, and the single call
submits exactly one worker loop per distinct collaborator. -/
theorem start_idempotent_witness :
    ∃ s₁ s₂, orchestrator_start ["move", "speak", "move"] initExecutorState = .ok s₁ ∧
      orchestrator_start ["move", "speak", "move"] s₁ = .ok s₂ ∧
      s₂.pool = s₁.pool ∧ s₂.submitted = s₁.submitted ∧
      (initExecutorState.submitted = [] → initExecutorState.pool = [] →
        s₁.pool.Nodup ∧ ∀ l, l ∈ s₁.pool ↔ l ∈ ["move", "speak", "move"]) :=
  start_idempotent ["move", "speak", "move"] initExecutorState rfl

theorem start_error_of_shutdown :
    ∀ labels (s : ExecutorState), s.shutdown = true →
      (∃ l ∈ labels, l ∉ s.submitted) →
      orchestrator_start labels s = .error "RuntimeError" := by
  intro labels
  induction labels with
  | nil => intro s _ h; simp at h
  | cons x rest ih =>
    intro s hsd h
    unfold orchestrator_start
    by_cases hx : x ∈ s.submitted
    · rw [if_pos hx]
      refine ih { s with warnings := s.warnings ++ [x] } hsd ?_
      obtain ⟨l, hl, hls⟩ := h
      rcases List.mem_cons.mp hl with rfl | hl
      · exact absurd hx hls
      · exact ⟨l, hl, hls⟩
    · rw [if_neg hx]
      unfold executor_submit
      rw [if_pos hsd]

/-- C10: after `stop()` the executor is shut down, so a subsequent
`start()` is not a no-op: as soon as it reaches a collaborator that is not
already in the submitted set, the `submit` call raises `RuntimeError`,
which propagates out of `start()`. -/
theorem start_after_stop_raises (labels : List String) (s : ExecutorState)
    (h : ∃ l ∈ labels, l ∉ s.submitted) :
    orchestrator_start labels (orchestrator_stop s) = .error "RuntimeError" :=
  start_error_of_shutdown labels (orchestrator_stop s) rfl h

/-- Concrete instantiation of `start_after_stop_raises`: starting a fresh
orchestrator configured with `["move"]` after stopping it raises
`RuntimeError`. -/
theorem start_after_stop_raises_witness :
    orchestrator_start ["move"] (orchestrator_stop initExecutorState) =
      .error "RuntimeError" :=
  start_after_stop_raises ["move"] initExecutorState
    ⟨"move", List.mem_singleton_self "move", by simp [initExecutorState]⟩

/-! ## Dispatch: events and the sequential mode -/

/-- Observable events of one dispatch cycle. -/
inductive Ev
  /-- `_get_agent_action` found no binding and logged a warning -/
  | warn (label : String)
  /-- `agent_action.connector.connect(...)` was invoked -/
  | connStart (label : String) (value : String)
  /-- the `connect` call returned normally -/
  | connEnd (label : String)
  /-- the `connect` call raised -/
  | connFail (label : String) (err : String)
  /-- `_completed_actions[label].set()` was called -/
  | sigSet (label : String)
deriving DecidableEq, Repr

/-- Does an event start a connector call? -/
def isStart : Ev → Bool
  | .connStart _ _ => true
  | _ => false

/-- Does an event terminate a connector call (return or raise)? -/
def isTerm : Ev → Bool
  | .connEnd _ => true
  | .connFail _ _ => true
  | _ => false

/-- The per-cycle dispatch state of `_promise_sequential`, trace aside:
the promise queue (each task as its `(label, value)` pair), the set of
completion-gate labels whose `asyncio.Event` is set, and the exception
propagating out of the dispatch loop, if any. -/
structure SeqCore where
  promise_queue : List (String × String)
  signaled : List String
  raised : Option String
deriving DecidableEq, Repr

/-- Embeds `ActionOrchestrator._promise_sequential` (lines 171-196) as a
pure function: the coroutine awaits each created task immediately after
creating it, so a sequential cycle has no interleaving.  `connect lbl v` is
the outcome of `agent_action.connector.connect(...)` (oracle);
`tableKeys` is the key set of `_completed_actions`.  Per action: normalize,
resolve (logging a warning and continuing on failure), append the task to
the promise queue, await it — a raised exception re-raises out of the loop
(recorded in `raised`; the remaining actions are not dispatched) — then set
the action's completion gate if its (post-normalization) label is a table
key.  Returns the final state and the generated event trace. -/
def _promise_sequential (agent_actions : List AgentAction)
    (connect : String → String → Except String Unit) (tableKeys : List String) :
    List Action → SeqCore → SeqCore × List Ev
  | [], s => (s, [])
  | a :: rest, s =>
    let an := _normalize_action a
    let lbl := pyLower an.type
    match _get_agent_action agent_actions an with
    | none =>
      let r := _promise_sequential agent_actions connect tableKeys rest s
      (r.1, .warn lbl :: r.2)
    | some _ =>
      let s1 : SeqCore := { s with promise_queue := s.promise_queue ++ [(lbl, an.value)] }
      match connect lbl an.value with
      | .error e =>
        ({ s1 with raised := some e }, [.connStart lbl an.value, .connFail lbl e])
      | .ok _ =>
        let s2 : SeqCore := if lbl ∈ tableKeys then
            { s1 with signaled :=
              if lbl ∈ s1.signaled then s1.signaled else s1.signaled ++ [lbl] }
          else s1
        let r := _promise_sequential agent_actions connect tableKeys rest s2
        (r.1, .connStart lbl an.value :: .connEnd lbl ::
          (if lbl ∈ tableKeys then .sigSet lbl :: r.2 else r.2))

/-- Embeds `promise` (lines 124-147) in sequential mode: rebuild the completion
table from the batch, then run the sequential dispatch from a fresh state. -/
def promise_sequential_run (agent_actions : List AgentAction)
    (connect : String → String → Except String Unit) (actions : List Action) :
    SeqCore × List Ev :=
  _promise_sequential agent_actions connect (_completed_actions_keys actions)
    actions ⟨[], [], none⟩

/-- Sequential ordering of a trace: whenever a connector call starts, every
connector call started earlier has already terminated (returned or raised),
i.e. every prefix ending just before a `connStart` is balanced. -/
def SeqOrdered (tr : List Ev) : Prop :=
  ∀ t₁ l v t₂, tr = t₁ ++ Ev.connStart l v :: t₂ →
    t₁.countP (fun e => isStart e) = t₁.countP (fun e => isTerm e)

/-- Immediate completion signaling: whenever a connector call for `l`
returns and `l` is a completion-table key, the very next event sets `l`'s
completion gate. -/
def SigImmediate (keys : List String) (tr : List Ev) : Prop :=
  ∀ t₁ l t₂, tr = t₁ ++ Ev.connEnd l :: t₂ → l ∈ keys →
    ∃ t₃, t₂ = Ev.sigSet l :: t₃

theorem seqOrdered_nil : SeqOrdered [] := by
  intro t₁ l v t₂ h
  exact absurd h (by simp)

theorem seqOrdered_cons_neutral (e : Ev) (tr : List Ev)
    (he : isStart e = false ∧ isTerm e = false) (h : SeqOrdered tr) :
    SeqOrdered (e :: tr) := by
  intro t₁ l v t₂ heq
  match t₁ with
  | [] =>
    simp only [List.nil_append, List.cons.injEq] at heq
    rw [heq.1] at he
    simp [isStart] at he
  | e' :: t₁' =>
    simp only [List.cons_append, List.cons.injEq] at heq
    obtain ⟨rfl, heq⟩ := heq
    have := h t₁' l v t₂ heq
    simp [List.countP_cons, he.1, he.2, this]

theorem seqOrdered_start_term (l₀ : String) (v₀ : String) (e : Ev) (tr : List Ev)
    (he : isStart e = false ∧ isTerm e = true) (h : SeqOrdered tr) :
    SeqOrdered (.connStart l₀ v₀ :: e :: tr) := by
  intro t₁ l v t₂ heq
  match t₁ with
  | [] => simp
  | [e'] =>
    simp only [List.cons_append, List.nil_append, List.cons.injEq] at heq
    rw [heq.2.1] at he
    simp [isStart] at he
  | e' :: e'' :: t₁' =>
    simp only [List.cons_append, List.cons.injEq] at heq
    obtain ⟨rfl, rfl, heq⟩ := heq
    have hcnt := h t₁' l v t₂ heq
    simp only [List.countP_cons, he.1, he.2, hcnt]
    simp [isStart, isTerm]

theorem sigImmediate_nil (keys : List String) : SigImmediate keys [] := by
  intro t₁ l t₂ h
  exact absurd h (by simp)

theorem sigImmediate_cons_not_end (keys : List String) (e : Ev) (tr : List Ev)
    (he : ∀ l, e ≠ Ev.connEnd l) (h : SigImmediate keys tr) :
    SigImmediate keys (e :: tr) := by
  intro t₁ l t₂ heq hl
  match t₁ with
  | [] =>
    simp only [List.nil_append, List.cons.injEq] at heq
    exact absurd heq.1 (he l)
  | e' :: t₁' =>
    simp only [List.cons_append, List.cons.injEq] at heq
    exact h t₁' l t₂ heq.2 hl

theorem sigImmediate_end_sig (keys : List String) (l₀ : String) (tr : List Ev)
    (h : SigImmediate keys (Ev.sigSet l₀ :: tr)) :
    SigImmediate keys (Ev.connEnd l₀ :: Ev.sigSet l₀ :: tr) := by
  intro t₁ l t₂ heq hl
  match t₁ with
  | [] =>
    simp only [List.nil_append, List.cons.injEq] at heq
    have hll : l₀ = l := Ev.connEnd.inj heq.1
    subst hll
    exact ⟨tr, heq.2.symm⟩
  | e' :: t₁' =>
    simp only [List.cons_append, List.cons.injEq] at heq
    exact h t₁' l t₂ heq.2 hl

theorem sigImmediate_end_absent (keys : List String) (l₀ : String) (tr : List Ev)
    (hl₀ : l₀ ∉ keys) (h : SigImmediate keys tr) :
    SigImmediate keys (Ev.connEnd l₀ :: tr) := by
  intro t₁ l t₂ heq hl
  match t₁ with
  | [] =>
    simp only [List.nil_append, List.cons.injEq] at heq
    have hll : l₀ = l := Ev.connEnd.inj heq.1
    subst hll
    exact absurd hl hl₀
  | e' :: t₁' =>
    simp only [List.cons_append, List.cons.injEq] at heq
    exact h t₁' l t₂ heq.2 hl

theorem promise_sequential_trace_wf (agent_actions : List AgentAction)
    (connect : String → String → Except String Unit) (tableKeys : List String) :
    ∀ actions s,
      SeqOrdered (_promise_sequential agent_actions connect tableKeys actions s).2 ∧
      SigImmediate tableKeys
        (_promise_sequential agent_actions connect tableKeys actions s).2 := by
  intro actions
  induction actions with
  | nil => intro s; exact ⟨seqOrdered_nil, sigImmediate_nil tableKeys⟩
  | cons a rest ih =>
    intro s
    unfold _promise_sequential
    rcases hres : _get_agent_action agent_actions (_normalize_action a) with _ | aa
    · simp only [hres]
      refine ⟨seqOrdered_cons_neutral _ _ ⟨rfl, rfl⟩ (ih s).1,
        sigImmediate_cons_not_end _ _ _ (by simp) (ih s).2⟩
    · simp only [hres]
      rcases hc : connect (pyLower (_normalize_action a).type) (_normalize_action a).value
        with e | u
      · simp only [hc]
        constructor
        · exact seqOrdered_start_term _ _ _ _ ⟨rfl, rfl⟩ seqOrdered_nil
        · refine sigImmediate_cons_not_end _ _ _ (by simp) ?_
          refine sigImmediate_cons_not_end _ _ _ (by simp) (sigImmediate_nil tableKeys)
      · simp only [hc]
        by_cases hk : pyLower (_normalize_action a).type ∈ tableKeys
        · simp only [if_pos hk]
          refine ⟨seqOrdered_start_term _ _ _ _ ⟨rfl, rfl⟩
            (seqOrdered_cons_neutral _ _ ⟨rfl, rfl⟩ (ih _).1), ?_⟩
          refine sigImmediate_cons_not_end _ _ _ (by simp) ?_
          exact sigImmediate_end_sig _ _ _
            (sigImmediate_cons_not_end _ _ _ (by simp) (ih _).2)
        · simp only [if_neg hk]
          refine ⟨seqOrdered_start_term _ _ _ _ ⟨rfl, rfl⟩ (ih _).1, ?_⟩
          refine sigImmediate_cons_not_end _ _ _ (by simp) ?_
          exact sigImmediate_end_absent _ _ _ hk (ih _).2

/-- C2: in sequential mode, actions are dispatched and awaited one at a
time in batch order: whenever a connector call starts, every connector call
started earlier in the cycle has already reached a terminal state
(`SeqOrdered`), and immediately after each connector call returns, that
action's completion gate is set provided its label is a key of the
completion-signal table (`SigImmediate`). -/
theorem promise_sequential_ordered (agent_actions : List AgentAction)
    (connect : String → String → Except String Unit) (actions : List Action) :
    SeqOrdered (promise_sequential_run agent_actions connect actions).2 ∧
      SigImmediate (_completed_actions_keys actions)
        (promise_sequential_run agent_actions connect actions).2 :=
  promise_sequential_trace_wf agent_actions connect
    (_completed_actions_keys actions) actions ⟨[], [], none⟩

/-- Concrete instantiation of `promise_sequential_ordered`: for the batch
`[move, speak]` with both bindings registered and succeeding connectors,
the second connector call is preceded by a balanced prefix (the first call
already terminated), and the event right after `connEnd "move"` is
`sigSet "move"`. -/
theorem promise_sequential_ordered_witness :
    ([Ev.connStart "move" "x", Ev.connEnd "move",
        Ev.sigSet "move"].countP (fun e => isStart e) =
      [Ev.connStart "move" "x", Ev.connEnd "move",
        Ev.sigSet "move"].countP (fun e => isTerm e)) ∧
      ∃ t₃, ([Ev.sigSet "move", Ev.connStart "speak" "y", Ev.connEnd "speak",
        Ev.sigSet "speak"] : List Ev) = Ev.sigSet "move" :: t₃ := by
  have h := promise_sequential_ordered [⟨"move"⟩, ⟨"speak"⟩] (fun _ _ => .ok ())
    [⟨"move", "x"⟩, ⟨"speak", "y"⟩]
  constructor
  · exact h.1 [Ev.connStart "move" "x", Ev.connEnd "move", Ev.sigSet "move"]
      "speak" "y" [Ev.connEnd "speak", Ev.sigSet "speak"] (by decide)
  · exact h.2 [Ev.connStart "move" "x"] "move"
      [Ev.sigSet "move", Ev.connStart "speak" "y", Ev.connEnd "speak",
        Ev.sigSet "speak"] (by decide) (by decide)

/-! ## Dispatch: concurrent mode -/

/-- Embeds `ActionOrchestrator._promise_concurrent` (lines 149-169) as a
pure function: for each action, normalize, resolve (warn and skip when no
binding exists), and create a task — appended to the promise queue as its
`(label, value)` pair — without awaiting anything.  Connector outcomes play
no part in dispatch: the created tasks run only when the cycle later yields
to the event loop.  Returns the warning trace and the promise queue. -/
def _promise_concurrent (agent_actions : List AgentAction) :
    List Action → List Ev × List (String × String)
  | [] => ([], [])
  | a :: rest =>
    let an := _normalize_action a
    match _get_agent_action agent_actions an with
    | none =>
      let r := _promise_concurrent agent_actions rest
      (.warn (pyLower an.type) :: r.1, r.2)
    | some _ =>
      let r := _promise_concurrent agent_actions rest
      (r.1, (pyLower an.type, an.value) :: r.2)

/-- The task entry an action contributes to the promise queue: `none` when
its normalized label has no binding (the action is skipped), otherwise its
`(label, value)` pair. -/
def resolveEntry (agent_actions : List AgentAction) (a : Action) :
    Option (String × String) :=
  let an := _normalize_action a
  match _get_agent_action agent_actions an with
  | none => none
  | some _ => some (pyLower an.type, an.value)

/-- Executing the created concurrent tasks: each `(label, value)` task
resolves to its own connector outcome, independently of its siblings. -/
def run_concurrent_tasks (connect : String → String → Except String Unit)
    (queue : List (String × String)) : List ((String × String) × Except String Unit) :=
  queue.map (fun t => (t, connect t.1 t.2))

theorem get_agent_action_label (agent_actions : List AgentAction) (b c : Action)
    (h : pyLower b.type = pyLower c.type) :
    _get_agent_action agent_actions b = _get_agent_action agent_actions c := by
  unfold _get_agent_action
  rw [h]

theorem promise_concurrent_queue (agent_actions : List AgentAction) :
    ∀ actions, (_promise_concurrent agent_actions actions).2 =
      actions.filterMap (resolveEntry agent_actions) := by
  intro actions
  induction actions with
  | nil => rfl
  | cons a rest ih =>
    unfold _promise_concurrent
    rcases hres : _get_agent_action agent_actions (_normalize_action a) with _ | aa
    · have hre : resolveEntry agent_actions a = none := by
        simp only [resolveEntry, hres]
      simp [hres, List.filterMap_cons, hre, ih]
    · have hre : resolveEntry agent_actions a =
          some (pyLower (_normalize_action a).type, (_normalize_action a).value) := by
        simp only [resolveEntry, hres]
      simp [hres, List.filterMap_cons, hre, ih]

theorem promise_concurrent_warn (agent_actions : List AgentAction) :
    ∀ actions a, a ∈ actions →
      _get_agent_action agent_actions (_normalize_action a) = none →
      Ev.warn (pyLower (_normalize_action a).type) ∈
        (_promise_concurrent agent_actions actions).1 := by
  intro actions
  induction actions with
  | nil => intro a ha; simp at ha
  | cons b rest ih =>
    intro a ha hna
    unfold _promise_concurrent
    rcases List.mem_cons.mp ha with rfl | ha
    · simp [hna]
    · rcases hres : _get_agent_action agent_actions (_normalize_action b) with _ | aa <;>
        simp [hres, ih a ha hna]

theorem promise_sequential_keys_irrel (agent_actions : List AgentAction)
    (connect : String → String → Except String Unit) :
    ∀ actions (k k' : List String) (s s' : SeqCore),
      s.promise_queue = s'.promise_queue → s.raised = s'.raised →
      (_promise_sequential agent_actions connect k actions s).1.promise_queue =
          (_promise_sequential agent_actions connect k' actions s').1.promise_queue ∧
        (_promise_sequential agent_actions connect k actions s).1.raised =
          (_promise_sequential agent_actions connect k' actions s').1.raised := by
  intro actions
  induction actions with
  | nil => intro k k' s s' hq hr; exact ⟨hq, hr⟩
  | cons a rest ih =>
    intro k k' s s' hq hr
    unfold _promise_sequential
    rcases hres : _get_agent_action agent_actions (_normalize_action a) with _ | aa
    · simp only [hres]
      exact ih k k' s s' hq hr
    · simp only [hres]
      rcases hc : connect (pyLower (_normalize_action a).type) (_normalize_action a).value
        with e | u
      · simp only [hc]
        exact ⟨by simp [hq], by simp⟩
      · simp only [hc]
        refine ih k k' _ _ ?_ ?_ <;>
          by_cases hk : pyLower (_normalize_action a).type ∈ k <;>
          by_cases hk' : pyLower (_normalize_action a).type ∈ k' <;>
          simp [hk, hk', hq, hr]

theorem promise_sequential_skip (agent_actions : List AgentAction)
    (connect : String → String → Except String Unit) (k : List String)
    (a : Action) (ys : List Action)
    (hna : _get_agent_action agent_actions (_normalize_action a) = none) :
    ∀ xs (s : SeqCore),
      (_promise_sequential agent_actions connect k (xs ++ a :: ys) s).1.promise_queue =
          (_promise_sequential agent_actions connect k (xs ++ ys) s).1.promise_queue ∧
        (_promise_sequential agent_actions connect k (xs ++ a :: ys) s).1.raised =
          (_promise_sequential agent_actions connect k (xs ++ ys) s).1.raised := by
  intro xs
  induction xs with
  | nil =>
    intro s
    simp only [List.nil_append, _promise_sequential, hna]
    exact ⟨trivial, trivial⟩
  | cons x xs' ih =>
    intro s
    simp only [List.cons_append, _promise_sequential]
    rcases hres : _get_agent_action agent_actions (_normalize_action x) with _ | aa
    · simp only [hres]
      exact ih s
    · simp only [hres]
      rcases hc : connect (pyLower (_normalize_action x).type) (_normalize_action x).value
        with e | u
      · simp only [hc]
        exact ⟨trivial, trivial⟩
      · simp only [hc]
        exact ih _

/-- C3 (counterexample): in sequential mode a connector exception does
propagate into the orchestrator's control flow and does abort the
remaining sibling actions.  With bindings for `"a"` and `"b"`, a batch
`[a, b]` and a connector for `"a"` that raises, `promise()` re-raises
`"boom"` (the awaited task's exception), only `a`'s task is ever created,
and `b`'s connector call never starts. -/
theorem sequential_failure_aborts :
    (promise_sequential_run [⟨"a"⟩, ⟨"b"⟩]
        (fun l _ => if l = "a" then .error "boom" else .ok ())
        [⟨"a", "1"⟩, ⟨"b", "2"⟩]).1.raised = some "boom" ∧
      (promise_sequential_run [⟨"a"⟩, ⟨"b"⟩]
        (fun l _ => if l = "a" then .error "boom" else .ok ())
        [⟨"a", "1"⟩, ⟨"b", "2"⟩]).1.promise_queue = [("a", "1")] ∧
      Ev.connStart "b" "2" ∉
        (promise_sequential_run [⟨"a"⟩, ⟨"b"⟩]
          (fun l _ => if l = "a" then .error "boom" else .ok ())
          [⟨"a", "1"⟩, ⟨"b", "2"⟩]).2 := by
  refine ⟨?_, ?_, ?_⟩ <;> decide

/-! ## Dispatch: dependencies mode

`_promise_with_dependencies` creates one `asyncio` task per resolvable
action without awaiting anything; the tasks then interleave on the
single-threaded cooperative scheduler.  Each task's body
(`_promise_action_with_deps`) awaits the completion gate of each of its
configured prerequisites that is a key of the current completion table
(skipping the absent ones), calls the connector, and — in the same
resumption in which the call returns — sets its own gate when its label is
a table key.  The cycle is embedded as a small-step relation whose steps
are single resumptions between suspension points. -/

/-- Phase of one dependencies-mode task. -/
inductive Phase
  /-- still working through the prerequisite list -/
  | waiting (remaining : List String)
  /-- the connector call has started and has not yet finished -/
  | connecting
  /-- the connector call returned (and the task's own gate, if present,
  was set in the same resumption) -/
  | completed
  /-- the connector call raised; the task ends with that exception -/
  | failed
deriving DecidableEq, Repr

/-- One task of a dependencies-mode cycle. -/
structure DepsTask where
  label : String
  value : String
  phase : Phase
deriving DecidableEq, Repr

/-- State of a dependencies-mode cycle. -/
structure DepsState where
  tableKeys : List String
  signaled : List String
  tasks : List DepsTask
  trace : List Ev
deriving DecidableEq, Repr

/-- The static configuration a dependencies-mode cycle runs against:
the registered bindings, `_action_dependencies` (as the total lookup
`.get(label, [])`), and the connector-outcome oracle. -/
structure DepsEnv where
  agent_actions : List AgentAction
  action_dependencies : String → List String
  connect : String → String → Except String Unit

/-- Embeds `promise` (lines 138-147) plus `_promise_with_dependencies` (lines
198-219): rebuild the completion table keyed by each action's raw
lowercased type, then create one task per resolvable action, logging a
warning and skipping actions with no binding.  The creating loop never
awaits, so every task exists before any of them runs. -/
def initDeps (env : DepsEnv) (actions : List Action) : DepsState :=
  { tableKeys := _completed_actions_keys actions
    signaled := []
    tasks := actions.filterMap (fun a =>
      let an := _normalize_action a
      match _get_agent_action env.agent_actions an with
      | none => none
      | some _ => some ⟨pyLower an.type, an.value,
          .waiting (env.action_dependencies (pyLower an.type))⟩)
    trace := actions.filterMap (fun a =>
      let an := _normalize_action a
      match _get_agent_action env.agent_actions an with
      | none => some (Ev.warn (pyLower an.type))
      | some _ => none) }

/-- One resumption of task `i`'s coroutine (`_promise_action_with_deps`,
lines 221-253). -/
inductive DepsStepAt (env : DepsEnv) (i : Nat) : DepsState → DepsState → Prop
  /-- the next prerequisite is not a key of the completion table: it is
  skipped without awaiting (`if dep in self._completed_actions` is false) -/
  | skipAbsent (s : DepsState) (t : DepsTask) (d : String) (ds : List String)
      (ht : s.tasks.get? i = some t) (hph : t.phase = .waiting (d :: ds))
      (habs : d ∉ s.tableKeys) :
      DepsStepAt env i s
        { s with tasks := s.tasks.set i { t with phase := .waiting ds } }
  /-- the next prerequisite's gate is set: `await ...wait()` resumes -/
  | passSignaled (s : DepsState) (t : DepsTask) (d : String) (ds : List String)
      (ht : s.tasks.get? i = some t) (hph : t.phase = .waiting (d :: ds))
      (hin : d ∈ s.tableKeys) (hsig : d ∈ s.signaled) :
      DepsStepAt env i s
        { s with tasks := s.tasks.set i { t with phase := .waiting ds } }
  /-- every prerequisite has been dealt with: the connector call starts -/
  | startConn (s : DepsState) (t : DepsTask)
      (ht : s.tasks.get? i = some t) (hph : t.phase = .waiting []) :
      DepsStepAt env i s
        { s with tasks := s.tasks.set i { t with phase := .connecting },
                 trace := s.trace ++ [.connStart t.label t.value] }
  /-- the connector call returns and the task's label is a table key: the
  task sets its own completion gate in the same resumption -/
  | finishOkSet (s : DepsState) (t : DepsTask)
      (ht : s.tasks.get? i = some t) (hph : t.phase = .connecting)
      (hok : env.connect t.label t.value = .ok ()) (hin : t.label ∈ s.tableKeys) :
      DepsStepAt env i s
        { s with tasks := s.tasks.set i { t with phase := .completed },
                 signaled := if t.label ∈ s.signaled then s.signaled
                   else s.signaled ++ [t.label],
                 trace := s.trace ++ [.connEnd t.label, .sigSet t.label] }
  /-- the connector call returns but the task's label is not a table key
  (e.g. it was rewritten by normalization): no gate is set -/
  | finishOkAbsent (s : DepsState) (t : DepsTask)
      (ht : s.tasks.get? i = some t) (hph : t.phase = .connecting)
      (hok : env.connect t.label t.value = .ok ()) (hout : t.label ∉ s.tableKeys) :
      DepsStepAt env i s
        { s with tasks := s.tasks.set i { t with phase := .completed },
                 trace := s.trace ++ [.connEnd t.label] }
  /-- the connector call raises: the task dies with the exception, which
  stays inside the task (nobody awaits it until `flush`) -/
  | finishErr (s : DepsState) (t : DepsTask) (e : String)
      (ht : s.tasks.get? i = some t) (hph : t.phase = .connecting)
      (herr : env.connect t.label t.value = .error e) :
      DepsStepAt env i s
        { s with tasks := s.tasks.set i { t with phase := .failed },
                 trace := s.trace ++ [.connFail t.label e] }

/-- One step of the cooperative scheduler: some task resumes. -/
def DepsStep (env : DepsEnv) (s s' : DepsState) : Prop :=
  ∃ i, DepsStepAt env i s s'

/-- A state reachable during the dependencies-mode cycle for `actions`. -/
def DepsReach (env : DepsEnv) (actions : List Action) (s : DepsState) : Prop :=
  Relation.ReflTransGen (DepsStep env) (initDeps env actions) s

/-- Dependency gating of a trace: whenever a connector call for label `l`
starts, every configured prerequisite of `l` that is a completion-table key
has already had its gate set. -/
def StartAfterDeps (deps : String → List String) (keys : List String)
    (tr : List Ev) : Prop :=
  ∀ t₁ l v t₂, tr = t₁ ++ Ev.connStart l v :: t₂ →
    ∀ d ∈ deps l, d ∈ keys → Ev.sigSet d ∈ t₁

theorem startAfterDeps_append (deps : String → List String) (keys : List String)
    (tr blk : List Ev) (h : StartAfterDeps deps keys tr)
    (hblk : ∀ l v, Ev.connStart l v ∈ blk →
      ∀ d ∈ deps l, d ∈ keys → Ev.sigSet d ∈ tr) :
    StartAfterDeps deps keys (tr ++ blk) := by
  intro t₁ l v t₂ heq d hd hk
  rcases List.append_eq_append_iff.mp heq with ⟨a', ha1, ha2⟩ | ⟨c', hc1, hc2⟩
  · have hmem : Ev.connStart l v ∈ blk := by
      rw [ha2]; exact List.mem_append_right a' (List.mem_cons_self _ _)
    have := hblk l v hmem d hd hk
    rw [ha1]
    exact List.mem_append_left a' this
  · match c' with
    | [] =>
      have hb : blk = Ev.connStart l v :: t₂ := by simpa using hc2.symm
      have hmem : Ev.connStart l v ∈ blk := by
        rw [hb]; exact List.mem_cons_self _ _
      have := hblk l v hmem d hd hk
      have ht : tr = t₁ := by simpa using hc1
      rw [← ht]
      exact this
    | e :: c'' =>
      simp only [List.cons_append, List.cons.injEq] at hc2
      obtain ⟨rfl, _⟩ := hc2
      exact h t₁ l v c'' (by rw [hc1]) d hd hk

theorem startAfterDeps_no_start (deps : String → List String) (keys : List String)
    (tr : List Ev) (h : ∀ l v, Ev.connStart l v ∉ tr) :
    StartAfterDeps deps keys tr := by
  intro t₁ l v t₂ heq d _ _
  exact absurd (heq ▸ List.mem_append_right t₁ (List.mem_cons_self _ _)) (h l v)

/-- The cycle invariant for dependencies mode. -/
def DepsInv (env : DepsEnv) (s : DepsState) : Prop :=
  (∀ d ∈ s.signaled, Ev.sigSet d ∈ s.trace) ∧
  (∀ t ∈ s.tasks, ∀ rem, t.phase = .waiting rem →
    ∃ p, env.action_dependencies t.label = p ++ rem ∧
      ∀ d ∈ p, d ∈ s.tableKeys → d ∈ s.signaled) ∧
  StartAfterDeps env.action_dependencies s.tableKeys s.trace ∧
  (∀ t ∈ s.tasks, t.phase = .completed → t.label ∈ s.tableKeys → t.label ∈ s.signaled)

theorem deps_step_inv (env : DepsEnv) (s s' : DepsState)
    (hstep : DepsStep env s s') (hinv : DepsInv env s) : DepsInv env s' := by
  obtain ⟨i, h⟩ := hstep
  obtain ⟨inv1, inv2, inv3, inv4⟩ := hinv
  cases h with
  | skipAbsent t d ds ht hph habs =>
    refine ⟨inv1, ?_, inv3, ?_⟩
    · intro t' ht' rem hrem
      rcases List.mem_or_eq_of_mem_set ht' with hmem | rfl
      · exact inv2 t' hmem rem hrem
      · simp only at hrem
        have hds : ds = rem := Phase.waiting.inj hrem
        subst hds
        obtain ⟨p, hp, hsig⟩ := inv2 t (List.get?_mem ht) (d :: ds) hph
        refine ⟨p ++ [d], by rw [hp]; simp, ?_⟩
        intro x hx hxk
        rcases List.mem_append.mp hx with hx | hx
        · exact hsig x hx hxk
        · rw [List.mem_singleton] at hx
          subst hx
          exact absurd hxk habs
    · intro t' ht' hc hk
      rcases List.mem_or_eq_of_mem_set ht' with hmem | rfl
      · exact inv4 t' hmem hc hk
      · exact absurd hc (by simp)
  | passSignaled t d ds ht hph hin hsig' =>
    refine ⟨inv1, ?_, inv3, ?_⟩
    · intro t' ht' rem hrem
      rcases List.mem_or_eq_of_mem_set ht' with hmem | rfl
      · exact inv2 t' hmem rem hrem
      · simp only at hrem
        have hds : ds = rem := Phase.waiting.inj hrem
        subst hds
        obtain ⟨p, hp, hsig⟩ := inv2 t (List.get?_mem ht) (d :: ds) hph
        refine ⟨p ++ [d], by rw [hp]; simp, ?_⟩
        intro x hx hxk
        rcases List.mem_append.mp hx with hx | hx
        · exact hsig x hx hxk
        · rw [List.mem_singleton] at hx
          subst hx
          exact hsig'
    · intro t' ht' hc hk
      rcases List.mem_or_eq_of_mem_set ht' with hmem | rfl
      · exact inv4 t' hmem hc hk
      · exact absurd hc (by simp)
  | startConn t ht hph =>
    refine ⟨?_, ?_, ?_, ?_⟩
    · intro d hd
      exact List.mem_append_left _ (inv1 d hd)
    · intro t' ht' rem hrem
      rcases List.mem_or_eq_of_mem_set ht' with hmem | rfl
      · exact inv2 t' hmem rem hrem
      · exact absurd hrem (by simp)
    · refine startAfterDeps_append _ _ _ _ inv3 ?_
      intro l v hlv d hd hk
      rw [List.mem_singleton] at hlv
      obtain ⟨hl, _⟩ := Ev.connStart.inj hlv
      subst hl
      obtain ⟨p, hp, hsig⟩ := inv2 t (List.get?_mem ht) [] hph
      rw [List.append_nil] at hp
      exact inv1 d (hsig d (by rw [hp] at hd; exact hd) hk)
    · intro t' ht' hc hk
      rcases List.mem_or_eq_of_mem_set ht' with hmem | rfl
      · exact inv4 t' hmem hc hk
      · exact absurd hc (by simp)
  | finishOkSet t ht hph hok hin =>
    have hsub : ∀ x ∈ s.signaled,
        x ∈ (if t.label ∈ s.signaled then s.signaled else s.signaled ++ [t.label]) := by
      intro x hx
      by_cases hm : t.label ∈ s.signaled
      · rw [if_pos hm]; exact hx
      · rw [if_neg hm]; exact List.mem_append_left _ hx
    have hself : t.label ∈
        (if t.label ∈ s.signaled then s.signaled else s.signaled ++ [t.label]) := by
      by_cases hm : t.label ∈ s.signaled
      · rw [if_pos hm]; exact hm
      · rw [if_neg hm]; exact List.mem_append_right _ (List.mem_singleton_self _)
    refine ⟨?_, ?_, ?_, ?_⟩
    · intro d hd
      by_cases hm : t.label ∈ s.signaled
      · rw [if_pos hm] at hd
        exact List.mem_append_left _ (inv1 d hd)
      · rw [if_neg hm] at hd
        rcases List.mem_append.mp hd with hd | hd
        · exact List.mem_append_left _ (inv1 d hd)
        · rw [List.mem_singleton] at hd
          subst hd
          exact List.mem_append_right _ (by simp)
    · intro t' ht' rem hrem
      rcases List.mem_or_eq_of_mem_set ht' with hmem | rfl
      · obtain ⟨p, hp, hsig⟩ := inv2 t' hmem rem hrem
        exact ⟨p, hp, fun d hd hk => hsub d (hsig d hd hk)⟩
      · exact absurd hrem (by simp)
    · refine startAfterDeps_append _ _ _ _ inv3 ?_
      intro l v hlv
      simp at hlv
    · intro t' ht' hc hk
      rcases List.mem_or_eq_of_mem_set ht' with hmem | rfl
      · exact hsub t'.label (inv4 t' hmem hc hk)
      · exact hself
  | finishOkAbsent t ht hph hok hout =>
    refine ⟨?_, ?_, ?_, ?_⟩
    · intro d hd
      exact List.mem_append_left _ (inv1 d hd)
    · intro t' ht' rem hrem
      rcases List.mem_or_eq_of_mem_set ht' with hmem | rfl
      · exact inv2 t' hmem rem hrem
      · exact absurd hrem (by simp)
    · refine startAfterDeps_append _ _ _ _ inv3 ?_
      intro l v hlv
      simp at hlv
    · intro t' ht' hc hk
      rcases List.mem_or_eq_of_mem_set ht' with hmem | rfl
      · exact inv4 t' hmem hc hk
      · exact absurd hk hout
  | finishErr t e ht hph herr =>
    refine ⟨?_, ?_, ?_, ?_⟩
    · intro d hd
      exact List.mem_append_left _ (inv1 d hd)
    · intro t' ht' rem hrem
      rcases List.mem_or_eq_of_mem_set ht' with hmem | rfl
      · exact inv2 t' hmem rem hrem
      · exact absurd hrem (by simp)
    · refine startAfterDeps_append _ _ _ _ inv3 ?_
      intro l v hlv
      simp at hlv
    · intro t' ht' hc hk
      rcases List.mem_or_eq_of_mem_set ht' with hmem | rfl
      · exact inv4 t' hmem hc hk
      · exact absurd hc (by simp)

theorem deps_init_inv (env : DepsEnv) (actions : List Action) :
    DepsInv env (initDeps env actions) := by
  refine ⟨?_, ?_, ?_, ?_⟩
  · intro d hd
    simp [initDeps] at hd
  · intro t ht rem hrem
    simp only [initDeps, List.mem_filterMap] at ht
    obtain ⟨a, _, ha⟩ := ht
    rcases hres : _get_agent_action env.agent_actions (_normalize_action a) with _ | aa <;>
      simp only [hres] at ha
    · exact absurd ha (by simp)
    · obtain rfl := Option.some.inj ha
      simp only at hrem
      refine ⟨[], ?_, by simp⟩
      simp only [List.nil_append]
      exact (Phase.waiting.inj hrem)
  · refine startAfterDeps_no_start _ _ _ ?_
    intro l v hlv
    simp only [initDeps, List.mem_filterMap] at hlv
    obtain ⟨a, _, ha⟩ := hlv
    rcases hres : _get_agent_action env.agent_actions (_normalize_action a) with _ | aa <;>
      simp [hres] at ha
  · intro t ht hc
    simp only [initDeps, List.mem_filterMap] at ht
    obtain ⟨a, _, ha⟩ := ht
    rcases hres : _get_agent_action env.agent_actions (_normalize_action a) with _ | aa <;>
      simp only [hres] at ha
    · exact absurd ha (by simp)
    · obtain rfl := Option.some.inj ha
      exact absurd hc (by simp)

theorem deps_reach_inv (env : DepsEnv) (actions : List Action) (s : DepsState)
    (h : DepsReach env actions s) : DepsInv env s := by
  induction h with
  | refl => exact deps_init_inv env actions
  | tail _ hstep ih => exact deps_step_inv env _ _ hstep ih

theorem deps_stepAt_frame (env : DepsEnv) (i : Nat) (s s' : DepsState)
    (h : DepsStepAt env i s s') :
    s'.tableKeys = s.tableKeys ∧
      (∀ d ∈ s.signaled, d ∈ s'.signaled) ∧
      (∀ d ∈ s'.signaled, d ∈ s.signaled ∨ d ∈ s.tableKeys) ∧
      (s.signaled.Nodup → s'.signaled.Nodup) ∧
      (∀ j, j ≠ i → s'.tasks.get? j = s.tasks.get? j) := by
  cases h with
  | skipAbsent t d ds ht hph habs =>
    exact ⟨rfl, fun d hd => hd, fun d hd => Or.inl hd, id,
      fun j hj => List.get?_set_ne _ _ (fun hh => hj hh.symm)⟩
  | passSignaled t d ds ht hph hin hsig =>
    exact ⟨rfl, fun d hd => hd, fun d hd => Or.inl hd, id,
      fun j hj => List.get?_set_ne _ _ (fun hh => hj hh.symm)⟩
  | startConn t ht hph =>
    exact ⟨rfl, fun d hd => hd, fun d hd => Or.inl hd, id,
      fun j hj => List.get?_set_ne _ _ (fun hh => hj hh.symm)⟩
  | finishOkSet t ht hph hok hin =>
    refine ⟨rfl, ?_, ?_, ?_, fun j hj => List.get?_set_ne _ _ (fun hh => hj hh.symm)⟩
    · intro d hd
      by_cases hm : t.label ∈ s.signaled
      · rw [if_pos hm]; exact hd
      · rw [if_neg hm]; exact List.mem_append_left _ hd
    · intro d hd
      by_cases hm : t.label ∈ s.signaled
      · rw [if_pos hm] at hd; exact Or.inl hd
      · rw [if_neg hm] at hd
        rcases List.mem_append.mp hd with hd | hd
        · exact Or.inl hd
        · rw [List.mem_singleton] at hd
          subst hd
          exact Or.inr hin
    · intro hnd
      by_cases hm : t.label ∈ s.signaled
      · rw [if_pos hm]; exact hnd
      · rw [if_neg hm]
        simp [List.nodup_append, hnd, hm]
  | finishOkAbsent t ht hph hok hout =>
    exact ⟨rfl, fun d hd => hd, fun d hd => Or.inl hd, id,
      fun j hj => List.get?_set_ne _ _ (fun hh => hj hh.symm)⟩
  | finishErr t e ht hph herr =>
    exact ⟨rfl, fun d hd => hd, fun d hd => Or.inl hd, id,
      fun j hj => List.get?_set_ne _ _ (fun hh => hj hh.symm)⟩

theorem deps_steps_mono (env : DepsEnv) (s s' : DepsState)
    (h : Relation.ReflTransGen (DepsStep env) s s') :
    s'.tableKeys = s.tableKeys ∧ ∀ d ∈ s.signaled, d ∈ s'.signaled := by
  induction h with
  | refl => exact ⟨rfl, fun d hd => hd⟩
  | tail _ hstep ih =>
    obtain ⟨i, h⟩ := hstep
    have hf := deps_stepAt_frame env i _ _ h
    exact ⟨ih.1 ▸ hf.1, fun d hd => hf.2.1 d (ih.2 d hd)⟩

theorem deps_reach_gate_once (env : DepsEnv) (actions : List Action) (s : DepsState)
    (h : DepsReach env actions s) :
    s.signaled.Nodup ∧ ∀ d ∈ s.signaled, d ∈ s.tableKeys := by
  induction h with
  | refl => exact ⟨by simp [initDeps], by simp [initDeps]⟩
  | tail _ hstep ih =>
    obtain ⟨i, h⟩ := hstep
    have hf := deps_stepAt_frame env i _ _ h
    refine ⟨hf.2.2.2.1 ih.1, ?_⟩
    intro d hd
    rw [hf.1]
    rcases hf.2.2.1 d hd with hd' | hd'
    · exact ih.2 d hd'
    · exact hd'

theorem deps_step_noninterference (env : DepsEnv) (i j : Nat) (s s₁ s₂ : DepsState)
    (hij : j ≠ i) (hi : DepsStepAt env i s s₁) (hj : DepsStepAt env j s s₂) :
    ∃ s₃, DepsStepAt env j s₁ s₃ := by
  have hf := deps_stepAt_frame env i s s₁ hi
  have htj := hf.2.2.2.2 j hij
  cases hj with
  | skipAbsent t d ds ht hph habs =>
    exact ⟨_, DepsStepAt.skipAbsent s₁ t d ds (by rw [htj]; exact ht) hph
      (by rw [hf.1]; exact habs)⟩
  | passSignaled t d ds ht hph hin hsig =>
    exact ⟨_, DepsStepAt.passSignaled s₁ t d ds (by rw [htj]; exact ht) hph
      (by rw [hf.1]; exact hin) (hf.2.1 d hsig)⟩
  | startConn t ht hph =>
    exact ⟨_, DepsStepAt.startConn s₁ t (by rw [htj]; exact ht) hph⟩
  | finishOkSet t ht hph hok hin =>
    exact ⟨_, DepsStepAt.finishOkSet s₁ t (by rw [htj]; exact ht) hph hok
      (by rw [hf.1]; exact hin)⟩
  | finishOkAbsent t ht hph hok hout =>
    exact ⟨_, DepsStepAt.finishOkAbsent s₁ t (by rw [htj]; exact ht) hph hok
      (by rw [hf.1]; exact hout)⟩
  | finishErr t e ht hph herr =>
    exact ⟨_, DepsStepAt.finishErr s₁ t e (by rw [htj]; exact ht) hph herr⟩

theorem seq_signaled_wf (agent_actions : List AgentAction)
    (connect : String → String → Except String Unit) (tableKeys : List String) :
    ∀ actions (s : SeqCore), s.signaled.Nodup → (∀ d ∈ s.signaled, d ∈ tableKeys) →
      (_promise_sequential agent_actions connect tableKeys actions s).1.signaled.Nodup ∧
        ∀ d ∈ (_promise_sequential agent_actions connect tableKeys actions s).1.signaled,
          d ∈ tableKeys := by
  intro actions
  induction actions with
  | nil => intro s h1 h2; exact ⟨h1, h2⟩
  | cons a rest ih =>
    intro s h1 h2
    unfold _promise_sequential
    rcases hres : _get_agent_action agent_actions (_normalize_action a) with _ | aa
    · simp only [hres]
      exact ih s h1 h2
    · simp only [hres]
      rcases hc : connect (pyLower (_normalize_action a).type) (_normalize_action a).value
        with e | u
      · simp only [hc]
        exact ⟨h1, h2⟩
      · simp only [hc]
        by_cases hk : pyLower (_normalize_action a).type ∈ tableKeys
        · simp only [if_pos hk]
          by_cases hm : pyLower (_normalize_action a).type ∈ s.signaled
          · simp only [if_pos hm]
            exact ih _ h1 h2
          · simp only [if_neg hm]
            refine ih _ ?_ ?_
            · simp [List.nodup_append, h1, hm]
            · intro d hd
              rcases List.mem_append.mp hd with hd | hd
              · exact h2 d hd
              · rw [List.mem_singleton] at hd
                subst hd
                exact hk
        · simp only [if_neg hk]
          exact ih _ h1 h2

/-- C1 (amended): in dependencies mode, in every reachable state of the
cycle, every connector call that has started did so only after the
completion gate of each configured prerequisite of its (post-normalization)
label that is a key of the cycle's completion table had been signaled; and
every task whose connector call has returned has its own gate set provided
its post-normalization label is a table key. -/
theorem deps_gating (env : DepsEnv) (actions : List Action) (s : DepsState)
    (h : DepsReach env actions s) :
    StartAfterDeps env.action_dependencies s.tableKeys s.trace ∧
      ∀ t ∈ s.tasks, t.phase = Phase.completed → t.label ∈ s.tableKeys →
        t.label ∈ s.signaled := by
  have hi := deps_reach_inv env actions s h
  exact ⟨hi.2.2.1, hi.2.2.2⟩

/-- Concrete instantiation of `deps_gating`: a full two-step run of the
one-action batch `[{type:"a", value:"1"}]` under a registered binding
`"a"`, ending with the task completed, its gate signaled, and the trace
dependency-gated. -/
theorem deps_gating_witness :
    StartAfterDeps (fun _ => ([] : List String)) ["a"]
        [Ev.connStart "a" "1", Ev.connEnd "a", Ev.sigSet "a"] ∧
      ∀ t ∈ [(⟨"a", "1", Phase.completed⟩ : DepsTask)], t.phase = Phase.completed →
        t.label ∈ ["a"] → t.label ∈ ["a"] := by
  have h1 : DepsStepAt ⟨[⟨"a"⟩], fun _ => [], fun _ _ => Except.ok ()⟩ 0
      (initDeps ⟨[⟨"a"⟩], fun _ => [], fun _ _ => Except.ok ()⟩ [⟨"a", "1"⟩])
      ⟨["a"], [], [⟨"a", "1", Phase.connecting⟩], [Ev.connStart "a" "1"]⟩ :=
    DepsStepAt.startConn _ ⟨"a", "1", Phase.waiting []⟩ (by decide) rfl
  have h2 : DepsStepAt ⟨[⟨"a"⟩], fun _ => [], fun _ _ => Except.ok ()⟩ 0
      ⟨["a"], [], [⟨"a", "1", Phase.connecting⟩], [Ev.connStart "a" "1"]⟩
      ⟨["a"], ["a"], [⟨"a", "1", Phase.completed⟩],
        [Ev.connStart "a" "1", Ev.connEnd "a", Ev.sigSet "a"]⟩ :=
    DepsStepAt.finishOkSet _ ⟨"a", "1", Phase.connecting⟩ (by decide) rfl rfl (by decide)
  have hreach : DepsReach ⟨[⟨"a"⟩], fun _ => [], fun _ _ => Except.ok ()⟩ [⟨"a", "1"⟩]
      ⟨["a"], ["a"], [⟨"a", "1", Phase.completed⟩],
        [Ev.connStart "a" "1", Ev.connEnd "a", Ev.sigSet "a"]⟩ :=
    Relation.ReflTransGen.tail
      (Relation.ReflTransGen.tail Relation.ReflTransGen.refl ⟨0, h1⟩) ⟨0, h2⟩
  exact deps_gating _ [⟨"a", "1"⟩] _ hreach

/-- C1 (counterexample): the claim says that after A's connector call
returns, A's own completion signal is set.  For the shorthand batch
`[{type:"turn left", value:""}]` with a binding for `"move"` under
dependencies mode, the completion table is keyed by the raw label
`"turn left"`, but the task sets the gate of its post-normalization label
`"move"`, which is not in the table: a complete, stuck run exists in which
A's connector call has returned yet no gate at all was ever signaled. -/
theorem deps_shorthand_gate_never_set :
    ∃ s, DepsReach ⟨[⟨"move"⟩], fun _ => [], fun _ _ => Except.ok ()⟩
        [⟨"turn left", ""⟩] s ∧
      Ev.connEnd "move" ∈ s.trace ∧
      (∀ t ∈ s.tasks, t.phase = Phase.completed) ∧
      s.signaled = [] ∧ s.tableKeys = ["turn left"] ∧
      ∀ s', ¬ DepsStep ⟨[⟨"move"⟩], fun _ => [], fun _ _ => Except.ok ()⟩ s s' := by
  refine ⟨⟨["turn left"], [], [⟨"move", "turn left", Phase.completed⟩],
    [Ev.connStart "move" "turn left", Ev.connEnd "move"]⟩, ?_, by decide, by decide,
    rfl, rfl, ?_⟩
  · have h1 : DepsStepAt ⟨[⟨"move"⟩], fun _ => [], fun _ _ => Except.ok ()⟩ 0
        (initDeps ⟨[⟨"move"⟩], fun _ => [], fun _ _ => Except.ok ()⟩ [⟨"turn left", ""⟩])
        ⟨["turn left"], [], [⟨"move", "turn left", Phase.connecting⟩],
          [Ev.connStart "move" "turn left"]⟩ :=
      DepsStepAt.startConn _ ⟨"move", "turn left", Phase.waiting []⟩ (by decide) rfl
    have h2 : DepsStepAt ⟨[⟨"move"⟩], fun _ => [], fun _ _ => Except.ok ()⟩ 0
        ⟨["turn left"], [], [⟨"move", "turn left", Phase.connecting⟩],
          [Ev.connStart "move" "turn left"]⟩
        ⟨["turn left"], [], [⟨"move", "turn left", Phase.completed⟩],
          [Ev.connStart "move" "turn left", Ev.connEnd "move"]⟩ :=
      DepsStepAt.finishOkAbsent _ ⟨"move", "turn left", Phase.connecting⟩
        (by decide) rfl rfl (by decide)
    exact Relation.ReflTransGen.tail
      (Relation.ReflTransGen.tail Relation.ReflTransGen.refl ⟨0, h1⟩) ⟨0, h2⟩
  · intro s' hs
    obtain ⟨i, h⟩ := hs
    cases h <;> rcases i with _ | i <;> simp_all <;> (rename_i ht; subst ht; simp_all)

/-- C4 (amended): every `promise(batch)` call rebuilds the completion
table from scratch: at cycle start the gates are exactly the batch's
(lowercased raw) action labels, all Pending.  During the cycle the gate
state only grows — a signaled gate is never reset, only table keys are ever
signaled, and no gate is signaled more than once (`Nodup`); in sequential
mode likewise.  (A gate may transition zero times; see the
counterexample.) -/
theorem completion_table_spec (env : DepsEnv) (actions : List Action)
    (connect : String → String → Except String Unit) (s s' : DepsState)
    (h : DepsReach env actions s)
    (h' : Relation.ReflTransGen (DepsStep env) s s') :
    ((initDeps env actions).signaled = [] ∧
      (initDeps env actions).tableKeys = _completed_actions_keys actions ∧
      ∀ l, l ∈ (initDeps env actions).tableKeys ↔ ∃ a ∈ actions, pyLower a.type = l) ∧
    (s'.tableKeys = _completed_actions_keys actions ∧
      ∀ d ∈ s.signaled, d ∈ s'.signaled) ∧
    (s.signaled.Nodup ∧ ∀ d ∈ s.signaled, d ∈ s.tableKeys) ∧
    ((promise_sequential_run env.agent_actions connect actions).1.signaled.Nodup ∧
      ∀ d ∈ (promise_sequential_run env.agent_actions connect actions).1.signaled,
        d ∈ _completed_actions_keys actions) := by
  have m1 := deps_steps_mono env _ s h
  have m2 := deps_steps_mono env s s' h'
  refine ⟨⟨rfl, rfl, ?_⟩, ⟨?_, m2.2⟩, deps_reach_gate_once env actions s h, ?_⟩
  · intro l
    simp [initDeps, _completed_actions_keys, List.mem_map]
  · rw [m2.1, m1.1]
    rfl
  · exact seq_signaled_wf env.agent_actions connect (_completed_actions_keys actions)
      actions ⟨[], [], none⟩ (by simp) (by simp)

/-- Concrete instantiation of `completion_table_spec` at the one-action
batch `[{type:"a", value:"1"}]` with a binding for `"a"` and the empty
reachability chains. -/
theorem completion_table_spec_witness :
    ((initDeps ⟨[⟨"a"⟩], fun _ => [], fun _ _ => Except.ok ()⟩
        [⟨"a", "1"⟩]).signaled = [] ∧
      (initDeps ⟨[⟨"a"⟩], fun _ => [], fun _ _ => Except.ok ()⟩
        [⟨"a", "1"⟩]).tableKeys = _completed_actions_keys [⟨"a", "1"⟩] ∧
      ∀ l, l ∈ (initDeps ⟨[⟨"a"⟩], fun _ => [], fun _ _ => Except.ok ()⟩
        [⟨"a", "1"⟩]).tableKeys ↔ ∃ a ∈ [(⟨"a", "1"⟩ : Action)], pyLower a.type = l) ∧
    ((initDeps ⟨[⟨"a"⟩], fun _ => [], fun _ _ => Except.ok ()⟩
        [⟨"a", "1"⟩]).tableKeys = _completed_actions_keys [⟨"a", "1"⟩] ∧
      ∀ d ∈ (initDeps ⟨[⟨"a"⟩], fun _ => [], fun _ _ => Except.ok ()⟩
        [⟨"a", "1"⟩]).signaled,
        d ∈ (initDeps ⟨[⟨"a"⟩], fun _ => [], fun _ _ => Except.ok ()⟩
          [⟨"a", "1"⟩]).signaled) ∧
    ((initDeps ⟨[⟨"a"⟩], fun _ => [], fun _ _ => Except.ok ()⟩
        [⟨"a", "1"⟩]).signaled.Nodup ∧
      ∀ d ∈ (initDeps ⟨[⟨"a"⟩], fun _ => [], fun _ _ => Except.ok ()⟩
        [⟨"a", "1"⟩]).signaled,
        d ∈ (initDeps ⟨[⟨"a"⟩], fun _ => [], fun _ _ => Except.ok ()⟩
          [⟨"a", "1"⟩]).tableKeys) ∧
    ((promise_sequential_run [⟨"a"⟩] (fun _ _ => Except.ok ())
        [⟨"a", "1"⟩]).1.signaled.Nodup ∧
      ∀ d ∈ (promise_sequential_run [⟨"a"⟩] (fun _ _ => Except.ok ())
        [⟨"a", "1"⟩]).1.signaled, d ∈ _completed_actions_keys [⟨"a", "1"⟩]) :=
  completion_table_spec ⟨[⟨"a"⟩], fun _ => [], fun _ _ => Except.ok ()⟩ [⟨"a", "1"⟩]
    (fun _ _ => Except.ok ()) _ _ Relation.ReflTransGen.refl Relation.ReflTransGen.refl

/-- C4 (counterexample): the claim says each gate transitions
Pending→Signaled exactly once during the cycle.  For the sequential-mode
call `promise([{type:"levitate", value:"x"}])` with no registered bindings,
the cycle completes normally (nothing raised, only a warning logged), yet
the table's one gate `"levitate"` is never signaled: zero transitions, not
exactly one. -/
theorem gate_never_transitions :
    _completed_actions_keys [⟨"levitate", "x"⟩] = ["levitate"] ∧
      (promise_sequential_run [] (fun _ _ => Except.ok ())
        [⟨"levitate", "x"⟩]).1.signaled = [] ∧
      (promise_sequential_run [] (fun _ _ => Except.ok ())
        [⟨"levitate", "x"⟩]).1.raised = none ∧
      (promise_sequential_run [] (fun _ _ => Except.ok ())
        [⟨"levitate", "x"⟩]).2 = [Ev.warn "levitate"] := by
  refine ⟨?_, ?_, ?_, ?_⟩ <;> decide

/-- C3 (amended): in concurrent and dependencies modes a connector
exception neither aborts the dispatch of sibling actions nor propagates
into the orchestrator's control flow: concurrent dispatch is a pure
function of the batch and the registry (its queue is the resolvable
actions, whatever the connector outcomes, and there is no raise path), a
failing task keeps every sibling entry when the created tasks execute, and
in dependencies mode any resumption of one task — a failing connector
return included — leaves every other task's enabled resumption enabled.
(In sequential mode the exception does propagate out of `promise()` and
aborts the remaining dispatch; see the counterexample.) -/
theorem failure_isolation (agent_actions : List AgentAction)
    (connect : String → String → Except String Unit) (actions : List Action)
    (q : List (String × String)) (env : DepsEnv) (i j : Nat) (s s₁ s₂ : DepsState)
    (hij : j ≠ i) (hi : DepsStepAt env i s s₁) (hj : DepsStepAt env j s s₂) :
    (_promise_concurrent agent_actions actions).2 =
        actions.filterMap (resolveEntry agent_actions) ∧
      (run_concurrent_tasks connect q).map Prod.fst = q ∧
      ∃ s₃, DepsStepAt env j s₁ s₃ :=
  ⟨promise_concurrent_queue agent_actions actions,
    by simp [run_concurrent_tasks, List.map_map, Function.comp_def],
    deps_step_noninterference env i j s s₁ s₂ hij hi hj⟩

/-- Concrete instantiation of `failure_isolation`: while task `"a"`'s
connector call fails (a `finishErr` resumption), task `"b"`'s pending
`startConn` resumption remains enabled afterwards. -/
theorem failure_isolation_witness :
    (_promise_concurrent [⟨"a"⟩, ⟨"b"⟩] [⟨"a", "1"⟩, ⟨"b", "2"⟩]).2 =
        [(⟨"a", "1"⟩ : Action), ⟨"b", "2"⟩].filterMap (resolveEntry [⟨"a"⟩, ⟨"b"⟩]) ∧
      (run_concurrent_tasks (fun l _ => if l = "a" then Except.error "boom"
        else Except.ok ()) [("a", "1"), ("b", "2")]).map Prod.fst =
        [("a", "1"), ("b", "2")] ∧
      ∃ s₃, DepsStepAt ⟨[⟨"a"⟩, ⟨"b"⟩], fun _ => [],
          fun l _ => if l = "a" then Except.error "boom" else Except.ok ()⟩ 1
        ⟨["a", "b"], [], [⟨"a", "1", Phase.failed⟩, ⟨"b", "2", Phase.waiting []⟩],
          [Ev.connFail "a" "boom"]⟩ s₃ := by
  have hi : DepsStepAt ⟨[⟨"a"⟩, ⟨"b"⟩], fun _ => [],
      fun l _ => if l = "a" then Except.error "boom" else Except.ok ()⟩ 0
      ⟨["a", "b"], [], [⟨"a", "1", Phase.connecting⟩, ⟨"b", "2", Phase.waiting []⟩], []⟩
      ⟨["a", "b"], [], [⟨"a", "1", Phase.failed⟩, ⟨"b", "2", Phase.waiting []⟩],
        [Ev.connFail "a" "boom"]⟩ :=
    DepsStepAt.finishErr _ ⟨"a", "1", Phase.connecting⟩ "boom" (by decide) rfl rfl
  have hj : DepsStepAt ⟨[⟨"a"⟩, ⟨"b"⟩], fun _ => [],
      fun l _ => if l = "a" then Except.error "boom" else Except.ok ()⟩ 1
      ⟨["a", "b"], [], [⟨"a", "1", Phase.connecting⟩, ⟨"b", "2", Phase.waiting []⟩], []⟩
      ⟨["a", "b"], [], [⟨"a", "1", Phase.connecting⟩, ⟨"b", "2", Phase.connecting⟩],
        [Ev.connStart "b" "2"]⟩ :=
    DepsStepAt.startConn _ ⟨"b", "2", Phase.waiting []⟩ (by decide) rfl
  exact failure_isolation [⟨"a"⟩, ⟨"b"⟩]
    (fun l _ => if l = "a" then Except.error "boom" else Except.ok ())
    [⟨"a", "1"⟩, ⟨"b", "2"⟩] [("a", "1"), ("b", "2")] _ 0 1 _ _ _
    (by decide) hi hj

/-- C9: in every execution mode an action whose normalized (lowercased)
type has no registered binding is warned about and treated as a no-op:
concurrent mode creates the same queue with or without it, logs the
warning, and no queue entry ever carries the unknown label; sequential
mode produces the same queue and the same (absent) exception with or
without it; dependencies mode creates the same task list with or without
it and logs the warning.  Dispatch of the surrounding actions continues
unchanged and nothing is raised. -/
theorem unknown_action_skipped (env : DepsEnv)
    (connect : String → String → Except String Unit)
    (a : Action) (xs ys : List Action)
    (hna : _get_agent_action env.agent_actions (_normalize_action a) = none) :
    (_promise_concurrent env.agent_actions (xs ++ a :: ys)).2 =
        (_promise_concurrent env.agent_actions (xs ++ ys)).2 ∧
      Ev.warn (pyLower (_normalize_action a).type) ∈
        (_promise_concurrent env.agent_actions (xs ++ a :: ys)).1 ∧
      (∀ p ∈ (_promise_concurrent env.agent_actions (xs ++ a :: ys)).2,
        p.1 ≠ pyLower (_normalize_action a).type) ∧
      (promise_sequential_run env.agent_actions connect (xs ++ a :: ys)).1.promise_queue =
        (promise_sequential_run env.agent_actions connect (xs ++ ys)).1.promise_queue ∧
      (promise_sequential_run env.agent_actions connect (xs ++ a :: ys)).1.raised =
        (promise_sequential_run env.agent_actions connect (xs ++ ys)).1.raised ∧
      (initDeps env (xs ++ a :: ys)).tasks = (initDeps env (xs ++ ys)).tasks ∧
      Ev.warn (pyLower (_normalize_action a).type) ∈ (initDeps env (xs ++ a :: ys)).trace := by
  have hre : resolveEntry env.agent_actions a = none := by
    simp only [resolveEntry, hna]
  have hskip := promise_sequential_skip env.agent_actions connect
    (_completed_actions_keys (xs ++ a :: ys)) a ys hna xs ⟨[], [], none⟩
  have hirrel := promise_sequential_keys_irrel env.agent_actions connect (xs ++ ys)
    (_completed_actions_keys (xs ++ a :: ys)) (_completed_actions_keys (xs ++ ys))
    ⟨[], [], none⟩ ⟨[], [], none⟩ rfl rfl
  refine ⟨?_, ?_, ?_, ?_, ?_, ?_, ?_⟩
  · rw [promise_concurrent_queue, promise_concurrent_queue]
    simp [List.filterMap_append, List.filterMap_cons, hre]
  · exact promise_concurrent_warn env.agent_actions (xs ++ a :: ys) a (by simp) hna
  · intro p hp heq
    rw [promise_concurrent_queue] at hp
    obtain ⟨b, _, hb⟩ := List.mem_filterMap.mp hp
    rcases hresb : _get_agent_action env.agent_actions (_normalize_action b) with _ | aa
    · rw [resolveEntry, hresb] at hb
      exact absurd hb (by simp)
    · rw [resolveEntry, hresb] at hb
      simp only [Option.some.injEq] at hb
      have hp1 : p.1 = pyLower (_normalize_action b).type := by rw [← hb]
      have hlab : pyLower (_normalize_action b).type = pyLower (_normalize_action a).type := by
        rw [← hp1, heq]
      have := get_agent_action_label env.agent_actions
        (_normalize_action b) (_normalize_action a) hlab
      rw [hresb, hna] at this
      exact absurd this (by simp)
  · exact hskip.1.trans hirrel.1
  · exact hskip.2.trans hirrel.2
  · simp [initDeps, List.filterMap_append, List.filterMap_cons, hna]
  · refine List.mem_filterMap.mpr ⟨a, by simp, ?_⟩
    simp [hna]

/-- Concrete instantiation of `unknown_action_skipped`: the batch
`[{type:"levitate"}, {type:"move"}]` with only a `"move"` binding skips
the unknown action in all three modes, warns, and still dispatches
`"move"`. -/
theorem unknown_action_skipped_witness :
    (_promise_concurrent [⟨"move"⟩] [⟨"levitate", ""⟩, ⟨"move", "x"⟩]).2 =
        (_promise_concurrent [⟨"move"⟩] [⟨"move", "x"⟩]).2 ∧
      Ev.warn (pyLower (_normalize_action ⟨"levitate", ""⟩).type) ∈
        (_promise_concurrent [⟨"move"⟩] [⟨"levitate", ""⟩, ⟨"move", "x"⟩]).1 ∧
      (∀ p ∈ (_promise_concurrent [⟨"move"⟩] [⟨"levitate", ""⟩, ⟨"move", "x"⟩]).2,
        p.1 ≠ pyLower (_normalize_action ⟨"levitate", ""⟩).type) ∧
      (promise_sequential_run [⟨"move"⟩] (fun _ _ => Except.ok ())
          [⟨"levitate", ""⟩, ⟨"move", "x"⟩]).1.promise_queue =
        (promise_sequential_run [⟨"move"⟩] (fun _ _ => Except.ok ())
          [⟨"move", "x"⟩]).1.promise_queue ∧
      (promise_sequential_run [⟨"move"⟩] (fun _ _ => Except.ok ())
          [⟨"levitate", ""⟩, ⟨"move", "x"⟩]).1.raised =
        (promise_sequential_run [⟨"move"⟩] (fun _ _ => Except.ok ())
          [⟨"move", "x"⟩]).1.raised ∧
      (initDeps ⟨[⟨"move"⟩], fun _ => [], fun _ _ => Except.ok ()⟩
          [⟨"levitate", ""⟩, ⟨"move", "x"⟩]).tasks =
        (initDeps ⟨[⟨"move"⟩], fun _ => [], fun _ _ => Except.ok ()⟩
          [⟨"move", "x"⟩]).tasks ∧
      Ev.warn (pyLower (_normalize_action ⟨"levitate", ""⟩).type) ∈
        (initDeps ⟨[⟨"move"⟩], fun _ => [], fun _ _ => Except.ok ()⟩
          [⟨"levitate", ""⟩, ⟨"move", "x"⟩]).trace :=
  unknown_action_skipped ⟨[⟨"move"⟩], fun _ => [], fun _ _ => Except.ok ()⟩
    (fun _ _ => Except.ok ()) ⟨"levitate", ""⟩ [] [⟨"move", "x"⟩] (by decide)

end OM1
